import Mathlib

/-!
Verification of the two data-preparation utilities of CellCarto-3DEEP:
a TSV-to-Parquet converter with a shuffle-and-shard partitioner
(convert_to_parquet.py) and a header-preserving line splitter
(split_data.py).  The Python code is shallowly embedded: dataframes and
files become Lean lists, the command-line driver becomes a pure function
from its inputs to an outcome record.
-/

namespace CellCarto

/- ## Pipeline B: split_data.py -/

/-- Size of part number i in the splitter loop of split_data.py (main,
lines 142-150): lines_per_part plus one extra while i < remainder. -/
def partSize (lpp rem i : Nat) : Nat := lpp + (if i < rem then 1 else 0)

/-- Embeds the part-building loop of split_data.py (main, lines 139-150).
Builds k parts starting at loop index i and data offset start; each part
is the header consed onto the slice data[start : start + size], Python
slicing being drop-then-take. -/
def partsFrom (header : α) (data : List α) (lpp rem : Nat) : Nat → Nat → Nat → List (List α)
  | _, _, 0 => []
  | i, start, k + 1 =>
    (header :: (data.drop start).take (partSize lpp rem i)) ::
      partsFrom header data lpp rem (i + 1) (start + partSize lpp rem i) k

/-- Embeds the line partitioner of split_data.py (main, lines 128-150):
header is lines[0], the data lines are divided into n contiguous groups,
the first (data % n) groups getting one extra line. -/
def splitParts (header : α) (data : List α) (n : Nat) : List (List α) :=
  partsFrom header data (data.length / n) (data.length % n) 0 0 n

/-- The sequence of part sizes produced from loop index i onwards. -/
def sizesFrom (lpp rem : Nat) : Nat → Nat → List Nat
  | _, 0 => []
  | i, k + 1 => partSize lpp rem i :: sizesFrom lpp rem (i + 1) k

theorem partsFrom_length (header : α) (data : List α) (lpp rem : Nat) :
    ∀ i start k, (partsFrom header data lpp rem i start k).length = k := by
  intro i start k
  induction k generalizing i start with
  | zero => rfl
  | succ k ih => simp [partsFrom, ih]

theorem sizesFrom_length (lpp rem : Nat) :
    ∀ i k, (sizesFrom lpp rem i k).length = k := by
  intro i k
  induction k generalizing i with
  | zero => rfl
  | succ k ih => simp [sizesFrom, ih]

theorem sizesFrom_sum (lpp rem : Nat) :
    ∀ i k, (sizesFrom lpp rem i k).sum = k * lpp + (min (i + k) rem - min i rem) := by
  intro i k
  induction k generalizing i with
  | zero => simp [sizesFrom]
  | succ k ih =>
    simp only [sizesFrom, List.sum_cons, ih (i + 1), partSize, Nat.succ_mul]
    rcases Nat.lt_or_ge i rem with h | h
    · simp only [if_pos h]
      omega
    · simp only [if_neg (Nat.not_lt.mpr h)]
      omega

theorem sizesFrom_sum_zero (lpp rem k : Nat) (h : rem ≤ k) :
    (sizesFrom lpp rem 0 k).sum = k * lpp + rem := by
  rw [sizesFrom_sum]
  omega

theorem sizesFrom_getD (lpp rem : Nat) :
    ∀ i k j, j < k → (sizesFrom lpp rem i k).getD j 0 = partSize lpp rem (i + j) := by
  intro i k
  induction k generalizing i with
  | zero => omega
  | succ k ih =>
    intro j hj
    cases j with
    | zero => simp [sizesFrom]
    | succ j =>
      have := ih (i + 1) j (by omega)
      simp only [sizesFrom, List.getD_cons_succ]
      rw [this]
      congr 1
      omega

/-- Every part built by the loop starts with the header line. -/
theorem partsFrom_head (header : α) (data : List α) (lpp rem : Nat) :
    ∀ i start k p, p ∈ partsFrom header data lpp rem i start k → ∃ t, p = header :: t := by
  intro i start k
  induction k generalizing i start with
  | zero => intro p hp; simp [partsFrom] at hp
  | succ k ih =>
    intro p hp
    simp only [partsFrom, List.mem_cons] at hp
    rcases hp with h | h
    · exact ⟨_, h⟩
    · exact ih _ _ _ h

/-- The tails (data lines) of the generated parts, in order, concatenate
to the contiguous region of data they were sliced from. -/
theorem partsFrom_join_tails (header : α) (data : List α) (lpp rem : Nat) :
    ∀ i start k, ((partsFrom header data lpp rem i start k).map List.tail).flatten
      = (data.drop start).take (sizesFrom lpp rem i k).sum := by
  intro i start k
  induction k generalizing i start with
  | zero => simp [partsFrom, sizesFrom]
  | succ k ih =>
    simp only [partsFrom, sizesFrom, List.map_cons, List.flatten_cons, List.tail_cons,
      List.sum_cons]
    rw [ih (i + 1) (start + partSize lpp rem i)]
    rw [List.take_add]
    congr 1
    rw [List.drop_drop]

/-- When the sizes from here on fit inside the data, each part receives
exactly its nominal number of data lines. -/
theorem partsFrom_tail_lengths (header : α) (data : List α) (lpp rem : Nat) :
    ∀ i start k, start + (sizesFrom lpp rem i k).sum ≤ data.length →
      (partsFrom header data lpp rem i start k).map (fun p => p.tail.length)
        = sizesFrom lpp rem i k := by
  intro i start k
  induction k generalizing i start with
  | zero => intro _; simp [partsFrom, sizesFrom]
  | succ k ih =>
    intro hle
    simp only [sizesFrom, List.sum_cons] at hle
    simp only [partsFrom, sizesFrom, List.map_cons, List.tail_cons]
    congr 1
    · simp only [List.length_take, List.length_drop]
      omega
    · exact ih (i + 1) (start + partSize lpp rem i) (by omega)

theorem splitParts_length (header : α) (data : List α) (n : Nat) :
    (splitParts header data n).length = n :=
  partsFrom_length header data (data.length / n) (data.length % n) 0 0 n

theorem splitParts_sizes_sum (data : List α) (n : Nat) (hn : 1 ≤ n) :
    (sizesFrom (data.length / n) (data.length % n) 0 n).sum = data.length := by
  rw [sizesFrom_sum_zero _ _ _ (Nat.le_of_lt (Nat.mod_lt _ hn))]
  exact Nat.div_add_mod data.length n

/-- Part number i of the split receives the header followed by exactly
partSize many data lines (no slice is ever clamped short). -/
theorem splitParts_part_spec (header : α) (data : List α) (n : Nat) (hn : 1 ≤ n)
    (i : Nat) (hi : i < n) :
    ∃ p, (splitParts header data n)[i]? = some p ∧ p.head? = some header ∧
      p.tail.length = partSize (data.length / n) (data.length % n) i := by
  have hlen : (splitParts header data n).length = n := splitParts_length header data n
  have hi' : i < (splitParts header data n).length := by rw [hlen]; exact hi
  refine ⟨(splitParts header data n)[i], List.getElem?_eq_getElem hi', ?_, ?_⟩
  · have hmem : (splitParts header data n)[i] ∈ splitParts header data n :=
      List.getElem_mem hi'
    obtain ⟨t, ht⟩ := partsFrom_head header data _ _ _ _ _ _ hmem
    rw [ht]
    rfl
  · have hmap := partsFrom_tail_lengths header data (data.length / n) (data.length % n) 0 0 n
      (by rw [splitParts_sizes_sum data n hn]; omega)
    have h1 : ((splitParts header data n).map (fun p => p.tail.length))[i]?
        = (sizesFrom (data.length / n) (data.length % n) 0 n)[i]? := by
      rw [splitParts]
      rw [hmap]
    rw [List.getElem?_map] at h1
    rw [List.getElem?_eq_getElem hi'] at h1
    have h2 : (sizesFrom (data.length / n) (data.length % n) 0 n)[i]?
        = some (partSize (data.length / n) (data.length % n) i) := by
      have hlen2 : i < (sizesFrom (data.length / n) (data.length % n) 0 n).length := by
        rw [sizesFrom_length]; exact hi
      rw [List.getElem?_eq_getElem hlen2]
      have := sizesFrom_getD (data.length / n) (data.length % n) 0 n i hi
      rw [List.getD_eq_getElem _ 0 hlen2] at this
      rw [this, Nat.zero_add]
    rw [h2] at h1
    exact Option.some_injective _ h1

/-- Claim C3: for every data-line count D and part count N with N at least 1,
the line partitioner gives each of the first D mod N parts D / N + 1 data
lines, each remaining part D / N data lines, and every part begins with the
original header line. -/
theorem splitParts_sizes_and_header (header : α) (data : List α) (n : Nat) (hn : 1 ≤ n) :
    (∀ i, i < data.length % n →
      ∃ p, (splitParts header data n)[i]? = some p ∧ p.head? = some header ∧
        p.tail.length = data.length / n + 1) ∧
    (∀ i, data.length % n ≤ i → i < n →
      ∃ p, (splitParts header data n)[i]? = some p ∧ p.head? = some header ∧
        p.tail.length = data.length / n) := by
  constructor
  · intro i hi
    have hin : i < n := Nat.lt_of_lt_of_le hi (Nat.le_of_lt (Nat.mod_lt _ hn))
    obtain ⟨p, hp, hh, hl⟩ := splitParts_part_spec header data n hn i hin
    exact ⟨p, hp, hh, by rw [hl, partSize, if_pos hi]⟩
  · intro i hge hin
    obtain ⟨p, hp, hh, hl⟩ := splitParts_part_spec header data n hn i hin
    exact ⟨p, hp, hh, by rw [hl, partSize, if_neg (Nat.not_lt.mpr hge)]; omega⟩

/-- Witness for splitParts_sizes_and_header: with three data lines and two
parts the first part gets two lines, the second one. -/
theorem splitParts_sizes_and_header_witness :
    1 ≤ 2 ∧
    ((∀ i, i < ([1, 2, 3] : List Nat).length % 2 →
      ∃ p, (splitParts 0 [1, 2, 3] 2)[i]? = some p ∧ p.head? = some 0 ∧
        p.tail.length = ([1, 2, 3] : List Nat).length / 2 + 1) ∧
    (∀ i, ([1, 2, 3] : List Nat).length % 2 ≤ i → i < 2 →
      ∃ p, (splitParts 0 [1, 2, 3] 2)[i]? = some p ∧ p.head? = some 0 ∧
        p.tail.length = ([1, 2, 3] : List Nat).length / 2)) :=
  ⟨by decide, splitParts_sizes_and_header 0 [1, 2, 3] 2 (by decide)⟩

/-- Claim C4: concatenating, in part order, the data lines of all parts
(each part with its leading header removed) restores the original data
line sequence in order. -/
theorem splitParts_reconstruct (header : α) (data : List α) (n : Nat) (hn : 1 ≤ n) :
    ((splitParts header data n).map List.tail).flatten = data := by
  rw [splitParts, partsFrom_join_tails, splitParts_sizes_sum data n hn]
  rw [List.drop_zero]
  exact List.take_length data

/-- Witness for splitParts_reconstruct on a three-line file split in two. -/
theorem splitParts_reconstruct_witness :
    1 ≤ 2 ∧ ((splitParts 0 [1, 2, 3] 2).map List.tail).flatten = [1, 2, 3] :=
  ⟨by decide, splitParts_reconstruct 0 [1, 2, 3] 2 (by decide)⟩

/-- Claim C10: the splitter always emits exactly N parts, each starting
with the header, and when there are fewer data lines than parts the parts
with no data consist of the header alone. -/
theorem splitParts_covers_all_parts (header : α) (data : List α) (n : Nat) (hn : 1 ≤ n) :
    (splitParts header data n).length = n ∧
    (∀ p ∈ splitParts header data n, ∃ t, p = header :: t) ∧
    (data.length < n → ∀ i, data.length ≤ i → i < n →
      (splitParts header data n)[i]? = some [header]) := by
  refine ⟨splitParts_length header data n, ?_, ?_⟩
  · intro p hp
    exact partsFrom_head header data _ _ _ _ _ p hp
  · intro hdn i hge hin
    obtain ⟨p, hp, hh, hl⟩ := splitParts_part_spec header data n hn i hin
    have hdiv : data.length / n = 0 := Nat.div_eq_of_lt hdn
    have hmod : data.length % n = data.length := Nat.mod_eq_of_lt hdn
    have hsz : partSize (data.length / n) (data.length % n) i = 0 := by
      have h1 : ¬ i < data.length := Nat.not_lt.mpr (by omega)
      simp only [partSize, hdiv, hmod, if_neg h1]
    rw [hsz] at hl
    rcases p with _ | ⟨a, t⟩
    · exact absurd hh (by simp)
    · simp only [List.head?_cons, Option.some_inj] at hh
      simp only [List.tail_cons] at hl
      have ht : t = [] := List.eq_nil_of_length_eq_zero hl
      rw [hh, ht] at hp
      exact hp

/-- Witness for splitParts_covers_all_parts: one data line, three parts. -/
theorem splitParts_covers_all_parts_witness :
    1 ≤ 3 ∧
    ((splitParts 0 [7] 3).length = 3 ∧
    (∀ p ∈ splitParts 0 [7] 3, ∃ t, p = 0 :: t) ∧
    (([7] : List Nat).length < 3 → ∀ i, ([7] : List Nat).length ≤ i → i < 3 →
      (splitParts 0 [7] 3)[i]? = some [0])) :=
  ⟨by decide, splitParts_covers_all_parts 0 [7] 3 (by decide)⟩

/-- Whether a character is one of the line boundaries recognised by
Python's str.splitlines. -/
def isLineBreak (c : Char) : Bool :=
  c == '\n' || c == '\r' || c == '\x0b' || c == '\x0c' ||
  c == '\x1c' || c == '\x1d' || c == '\x1e' || c == '\x85' ||
  c == '\u2028' || c == '\u2029'

/-- Worker for splitlinesKeepends: cur is the current (unterminated) line
accumulated so far.  A carriage return directly followed by a newline ends
a line as the two-character terminator. -/
def slkAux (cur : List Char) (text : List Char) : List (List Char) :=
  match text with
  | [] => if cur.isEmpty then [] else [cur]
  | c :: rest =>
    if c == '\r' && rest.head? == some '\n' then
      (cur ++ [c, '\n']) :: slkAux [] rest.tail
    else if isLineBreak c then
      (cur ++ [c]) :: slkAux [] rest
    else
      slkAux (cur ++ [c]) rest
termination_by text.length
decreasing_by
  · simp only [List.length_cons, List.length_tail]; omega
  · simp only [List.length_cons]; omega
  · simp only [List.length_cons]; omega

/-- Python text.splitlines(keepends=True) over the decoded characters. -/
def splitlinesKeepends (text : List Char) : List (List Char) := slkAux [] text

/-- Embeds read_file_lines of split_data.py (lines 43-71) after the gzip
decompression and utf-8 decoding steps, which are byte-level I/O and are
not part of the line logic: split the decoded text into lines keeping the
line endings, then append a newline to the last line if it lacks one. -/
def read_file_lines (text : List Char) : List (List Char) :=
  let lines := splitlinesKeepends text
  match lines.getLast? with
  | none => lines
  | some lst =>
    if lst.getLast? = some '\n' then lines
    else lines.dropLast ++ [lst ++ ['\n']]

theorem slkAux_nil (cur : List Char) :
    slkAux cur [] = if cur.isEmpty then [] else [cur] := by
  rw [slkAux]

theorem slkAux_cons (cur : List Char) (c : Char) (rest : List Char) :
    slkAux cur (c :: rest) =
      if c == '\r' && rest.head? == some '\n' then
        (cur ++ [c, '\n']) :: slkAux [] rest.tail
      else if isLineBreak c then (cur ++ [c]) :: slkAux [] rest
      else slkAux (cur ++ [c]) rest := by
  rw [slkAux]

theorem slkAux_flatten_le : ∀ (fuel : Nat) (text : List Char), text.length ≤ fuel →
    ∀ cur, (slkAux cur text).flatten = cur ++ text := by
  intro fuel
  induction fuel with
  | zero =>
    intro text h cur
    have ht : text = [] := List.eq_nil_of_length_eq_zero (by omega)
    subst ht
    rw [slkAux_nil]
    by_cases hc : cur.isEmpty
    · have hcc : cur = [] := List.isEmpty_iff.mp hc
      rw [if_pos hc, hcc]
      rfl
    · rw [if_neg hc]
      simp
  | succ fuel ih =>
    intro text hlen cur
    match text with
    | [] =>
      rw [slkAux_nil]
      by_cases hc : cur.isEmpty
      · have hcc : cur = [] := List.isEmpty_iff.mp hc
        rw [if_pos hc, hcc]
        rfl
      · rw [if_neg hc]
        simp
    | c :: rest =>
      rw [slkAux_cons]
      simp only [List.length_cons] at hlen
      by_cases h1 : (c == '\r' && rest.head? == some '\n') = true
      · rw [if_pos h1]
        rw [Bool.and_eq_true, beq_iff_eq, beq_iff_eq] at h1
        obtain ⟨hc, hh⟩ := h1
        rcases rest with _ | ⟨d, rest2⟩
        · simp at hh
        · simp only [List.head?_cons, Option.some_inj] at hh
          simp only [List.tail_cons, List.flatten_cons]
          rw [ih rest2 (by simp at hlen; omega) []]
          simp [hc, hh]
      · rw [if_neg h1]
        by_cases h2 : isLineBreak c = true
        · rw [if_pos h2]
          simp only [List.flatten_cons]
          rw [ih rest (by omega) []]
          simp
        · rw [if_neg h2]
          rw [ih rest (by omega) (cur ++ [c])]
          simp

/-- The lines produced by splitlinesKeepends concatenate back to the text. -/
theorem splitlinesKeepends_flatten (text : List Char) :
    (splitlinesKeepends text).flatten = text :=
  slkAux_flatten_le text.length text le_rfl []

theorem slkAux_ne_nil : ∀ (fuel : Nat) (text : List Char), text.length ≤ fuel →
    ∀ cur, cur ≠ [] ∨ text ≠ [] → slkAux cur text ≠ [] := by
  intro fuel
  induction fuel with
  | zero =>
    intro text h cur hor
    have ht : text = [] := List.eq_nil_of_length_eq_zero (by omega)
    subst ht
    rw [slkAux_nil]
    rcases hor with h1 | h1
    · rw [if_neg (by simpa [List.isEmpty_iff] using h1)]
      simp
    · exact absurd rfl h1
  | succ fuel ih =>
    intro text hlen cur hor
    match text with
    | [] =>
      rw [slkAux_nil]
      rcases hor with h1 | h1
      · rw [if_neg (by simpa [List.isEmpty_iff] using h1)]
        simp
      · exact absurd rfl h1
    | c :: rest =>
      rw [slkAux_cons]
      simp only [List.length_cons] at hlen
      by_cases h1 : (c == '\r' && rest.head? == some '\n') = true
      · rw [if_pos h1]
        simp
      · rw [if_neg h1]
        by_cases h2 : isLineBreak c = true
        · rw [if_pos h2]
          simp
        · rw [if_neg h2]
          exact ih rest (by omega) (cur ++ [c]) (Or.inl (by simp))

/-- A non-empty text splits into at least one line. -/
theorem splitlinesKeepends_ne_nil (text : List Char) (h : text ≠ []) :
    splitlinesKeepends text ≠ [] :=
  slkAux_ne_nil text.length text le_rfl [] (Or.inr h)

/-- Claim C8: on any non-empty decoded input, read_file_lines returns the
splitlines decomposition of the text with all lines except possibly the
last unchanged, the last line is normalized to end in a newline (either it
already did, or a newline is appended), and the decomposition is faithful:
the raw lines concatenate back to the text. -/
theorem read_file_lines_spec (text : List Char) (hne : text ≠ []) :
    (splitlinesKeepends text).flatten = text ∧
    (read_file_lines text).dropLast = (splitlinesKeepends text).dropLast ∧
    (∃ lst, (read_file_lines text).getLast? = some lst ∧ lst.getLast? = some '\n') ∧
    ((read_file_lines text).getLast? = (splitlinesKeepends text).getLast? ∨
      ∃ l, (splitlinesKeepends text).getLast? = some l ∧
        (read_file_lines text).getLast? = some (l ++ ['\n'])) := by
  have hnn := splitlinesKeepends_ne_nil text hne
  obtain ⟨lst, hlast⟩ : ∃ l, (splitlinesKeepends text).getLast? = some l := by
    rcases h : (splitlinesKeepends text).getLast? with _ | l
    · exact absurd (List.getLast?_eq_none_iff.mp h) hnn
    · exact ⟨l, rfl⟩
  refine ⟨splitlinesKeepends_flatten text, ?_⟩
  rw [read_file_lines]
  simp only [hlast]
  by_cases hend : lst.getLast? = some '\n'
  · rw [if_pos hend]
    exact ⟨rfl, ⟨lst, hlast, hend⟩, Or.inl hlast⟩
  · rw [if_neg hend]
    refine ⟨List.dropLast_concat, ⟨lst ++ ['\n'], List.getLast?_concat _, ?_⟩, ?_⟩
    · rw [List.getLast?_concat]
    · exact Or.inr ⟨lst, rfl, List.getLast?_concat _⟩

/-- Witness for read_file_lines_spec on the two-line text "a\nb" whose
final line lacks a newline. -/
theorem read_file_lines_spec_witness :
    ['a', '\n', 'b'] ≠ [] ∧
    ((splitlinesKeepends ['a', '\n', 'b']).flatten = ['a', '\n', 'b'] ∧
    (read_file_lines ['a', '\n', 'b']).dropLast
      = (splitlinesKeepends ['a', '\n', 'b']).dropLast ∧
    (∃ lst, (read_file_lines ['a', '\n', 'b']).getLast? = some lst ∧
      lst.getLast? = some '\n') ∧
    ((read_file_lines ['a', '\n', 'b']).getLast?
        = (splitlinesKeepends ['a', '\n', 'b']).getLast? ∨
      ∃ l, (splitlinesKeepends ['a', '\n', 'b']).getLast? = some l ∧
        (read_file_lines ['a', '\n', 'b']).getLast? = some (l ++ ['\n']))) :=
  ⟨by decide, read_file_lines_spec ['a', '\n', 'b'] (by decide)⟩

/-- Splits an argument string at the first equals sign, as Python
arg.split with separator equals and maxsplit 1 does: key before the first
separator, value everything after it.  none when no separator occurs. -/
def breakAtEq : List Char → Option (List Char × List Char)
  | [] => none
  | c :: rest =>
    if c == '=' then some ([], rest)
    else
      match breakAtEq rest with
      | none => none
      | some kv => some (c :: kv.1, kv.2)

/-- Embeds parse_arguments of split_data.py (lines 12-21) for one argv
entry: key=value pairs are kept, anything else is ignored with a warning. -/
def parseArg (s : String) : Option (String × String) :=
  (breakAtEq s.data).map (fun kv => (⟨kv.1⟩, ⟨kv.2⟩))

/-- Dictionary lookup over the parsed arguments: later duplicates of a key
overwrite earlier ones, as repeated assignment into a Python dict does. -/
def argsGet (args : List (String × String)) (k : String) : Option String :=
  (args.reverse.find? (fun p => p.1 == k)).map Prod.snd

/-- Python truthiness test used by the argument checks: a missing key or
an empty string is falsy. -/
def falsy : Option String → Bool
  | none => true
  | some s => s == ""

/-- Whitespace stripped by Python int() before parsing. -/
def isPySpace (c : Char) : Bool :=
  c == ' ' || c == '\t' || c == '\n' || c == '\r' || c == '\x0b' || c == '\x0c'

/-- Strip leading and trailing whitespace. -/
def pyStrip (cs : List Char) : List Char :=
  ((cs.dropWhile isPySpace).reverse.dropWhile isPySpace).reverse

/-- Digit-string value, none if empty or any non-digit. -/
def digitsVal (cs : List Char) : Option Nat :=
  if cs.isEmpty then none
  else if cs.all Char.isDigit then
    some (cs.foldl (fun a c => 10 * a + (c.toNat - 48)) 0)
  else none

/-- Models Python int() applied to a string: optional surrounding
whitespace, optional sign, then decimal digits; anything else raises
ValueError, modelled as none.  (Underscore digit separators accepted by
Python are not modelled; no claim depends on them.) -/
def pyParseInt (s : String) : Option Int :=
  match pyStrip s.data with
  | '-' :: rest => (digitsVal rest).map (fun v => -(v : Int))
  | '+' :: rest => (digitsVal rest).map (fun v => (v : Int))
  | rest => (digitsVal rest).map (fun v => (v : Int))

/-- The usage string printed by split_data.py for missing arguments. -/
def usageMessage : String :=
  "Usage: python split_data.py input_file=path/to/file output_path=path/ n_files=10"

/-- Outcome of one invocation of the splitter: process exit code, the
diagnostic lines printed on the error paths, and the line contents of the
part files written (empty when the run aborts before writing).  Progress
messages of successful runs and output file naming are I/O detail not
modelled; no claim depends on them. -/
structure SplitOutcome where
  exitCode : Nat
  printed : List String
  written : List (List (List Char))
deriving DecidableEq

/-- Embeds main of split_data.py (lines 73-185): argument validation in
source order, then existence and emptiness checks, then the split.  The
input file is given by its existence flag and its decoded text. -/
def splitMain (argv : List String) (inputExists : Bool) (fileText : List Char) :
    SplitOutcome :=
  let args := argv.filterMap parseArg
  let input_file := argsGet args "input_file"
  let output_path := argsGet args "output_path"
  let n_files_raw := argsGet args "n_files"
  if falsy input_file then
    ⟨1, ["Error: input_file is required", usageMessage], []⟩
  else if falsy output_path then
    ⟨1, ["Error: output_path is required", usageMessage], []⟩
  else if falsy n_files_raw then
    ⟨1, ["Error: n_files is required", usageMessage], []⟩
  else
    match pyParseInt (n_files_raw.getD "") with
    | none => ⟨1, ["Error: n_files must be a positive integer"], []⟩
    | some n =>
      if n < 1 then ⟨1, ["Error: n_files must be a positive integer"], []⟩
      else if inputExists = false then
        ⟨1, ["Error: Input file '" ++ input_file.getD "" ++ "' does not exist"], []⟩
      else
        let lines := read_file_lines fileText
        if lines.length = 0 then
          ⟨1, ["Error: Input file is empty"], []⟩
        else
          ⟨0, [], splitParts (lines.headD []) lines.tail n.toNat⟩

/-- Claim C6: when the arguments are valid and the input file exists but
its decoded text yields zero lines, the run exits with code 1, prints the
input-file-is-empty message, and writes nothing. -/
theorem splitMain_empty_input (argv : List String) (fileText : List Char)
    (h1 : falsy (argsGet (argv.filterMap parseArg) "input_file") = false)
    (h2 : falsy (argsGet (argv.filterMap parseArg) "output_path") = false)
    (h3 : ∃ n, pyParseInt ((argsGet (argv.filterMap parseArg) "n_files").getD "")
        = some n ∧ 1 ≤ n)
    (hempty : read_file_lines fileText = []) :
    splitMain argv true fileText = ⟨1, ["Error: Input file is empty"], []⟩ := by
  obtain ⟨n, hp, hn1⟩ := h3
  have h0 : falsy (argsGet (argv.filterMap parseArg) "n_files") = false := by
    rcases hr : argsGet (argv.filterMap parseArg) "n_files" with _ | s
    · rw [hr] at hp
      simp [pyParseInt, pyStrip, digitsVal] at hp
    · rw [hr] at hp
      rcases hs : (s == "") with _ | _
      · simp [falsy, hs]
      · have : s = "" := by simpa using hs
        rw [this] at hp
        simp [pyParseInt, pyStrip, digitsVal] at hp
  rw [splitMain]
  simp only [h1, h2, h0, Bool.false_eq_true, if_false, hp]
  rw [if_neg (by omega)]
  simp only [if_neg (by simp : ¬ (true = false))]
  rw [hempty]
  simp

/-- Witness for splitMain_empty_input with well-formed arguments and an
empty file. -/
theorem splitMain_empty_input_witness :
    splitMain ["input_file=a", "output_path=b", "n_files=2"] true [] =
      ⟨1, ["Error: Input file is empty"], []⟩ :=
  splitMain_empty_input ["input_file=a", "output_path=b", "n_files=2"] []
    (by decide) (by decide) ⟨2, by decide, by decide⟩
    (by simp [read_file_lines, splitlinesKeepends, slkAux_nil])

/-- Counterexample to claim C7 as stated: with all three arguments present
but n_files=0 the process exits with code 1 and writes nothing, yet the
usage message is not among the printed diagnostics — only the specific
n_files error line is. -/
theorem splitMain_usage_counterexample :
    (splitMain ["input_file=a", "output_path=b", "n_files=0"] true ['h', '\n']).exitCode
        = 1 ∧
    usageMessage ∉
      (splitMain ["input_file=a", "output_path=b", "n_files=0"] true ['h', '\n']).printed ∧
    (splitMain ["input_file=a", "output_path=b", "n_files=0"] true ['h', '\n']).written
        = [] := by
  decide

/-- The missing-input-file diagnostic can never be the usage string,
whatever filename it embeds: the two start with different characters. -/
theorem usageMessage_ne_file_error (x : String) :
    usageMessage ≠ "Error: Input file '" ++ x ++ "' does not exist" := by
  intro h
  have hd : usageMessage.data.head?
      = ("Error: Input file '" ++ x ++ "' does not exist").data.head? := by
    rw [h]
  rw [String.data_append, String.data_append] at hd
  rw [show "Error: Input file '".data = 'E' :: "rror: Input file '".data from rfl] at hd
  rw [List.cons_append, List.cons_append, List.head?_cons] at hd
  rw [show usageMessage.data.head? = some 'U' from rfl] at hd
  exact absurd hd (by decide)

/-- Claim C7 amended: every invocation with a missing required argument, a
non-positive-integer n_files, a missing input file, or an empty input exits
with code 1, prints a diagnostic message, and writes no output; the full
usage message is printed exactly in the missing-required-argument cases —
the other failures print specific error messages without it. -/
theorem splitMain_error_paths (argv : List String) (inputExists : Bool) (fileText : List Char)
    (h : falsy (argsGet (argv.filterMap parseArg) "input_file") = true ∨
         falsy (argsGet (argv.filterMap parseArg) "output_path") = true ∨
         falsy (argsGet (argv.filterMap parseArg) "n_files") = true ∨
         pyParseInt ((argsGet (argv.filterMap parseArg) "n_files").getD "") = none ∨
         (∃ n, pyParseInt ((argsGet (argv.filterMap parseArg) "n_files").getD "") = some n ∧
           n < 1) ∨
         inputExists = false ∨
         read_file_lines fileText = []) :
    (splitMain argv inputExists fileText).exitCode = 1 ∧
    (splitMain argv inputExists fileText).written = [] ∧
    (splitMain argv inputExists fileText).printed ≠ [] ∧
    (usageMessage ∈ (splitMain argv inputExists fileText).printed ↔
      (falsy (argsGet (argv.filterMap parseArg) "input_file") = true ∨
       falsy (argsGet (argv.filterMap parseArg) "output_path") = true ∨
       falsy (argsGet (argv.filterMap parseArg) "n_files") = true)) := by
  rw [splitMain]
  by_cases hA : falsy (argsGet (argv.filterMap parseArg) "input_file") = true
  · rw [if_pos hA]
    exact ⟨rfl, rfl, by simp, ⟨fun _ => Or.inl hA, fun _ => by simp⟩⟩
  · rw [if_neg hA]
    by_cases hB : falsy (argsGet (argv.filterMap parseArg) "output_path") = true
    · rw [if_pos hB]
      exact ⟨rfl, rfl, by simp, ⟨fun _ => Or.inr (Or.inl hB), fun _ => by simp⟩⟩
    · rw [if_neg hB]
      by_cases hC : falsy (argsGet (argv.filterMap parseArg) "n_files") = true
      · rw [if_pos hC]
        exact ⟨rfl, rfl, by simp, ⟨fun _ => Or.inr (Or.inr hC), fun _ => by simp⟩⟩
      · rw [if_neg hC]
        have husage : (falsy (argsGet (argv.filterMap parseArg) "input_file") = true ∨
            falsy (argsGet (argv.filterMap parseArg) "output_path") = true ∨
            falsy (argsGet (argv.filterMap parseArg) "n_files") = true) → False := by
          intro hor
          rcases hor with hx | hx | hx
          · exact hA hx
          · exact hB hx
          · exact hC hx
        rcases hp : pyParseInt ((argsGet (argv.filterMap parseArg) "n_files").getD "")
          with _ | n
        · simp only [hp]
          exact ⟨by trivial, by trivial, by simp,
            ⟨fun hmem => absurd hmem (by decide), fun hor => absurd hor husage⟩⟩
        · simp only [hp]
          by_cases hn : n < 1
          · rw [if_pos hn]
            exact ⟨rfl, rfl, by simp,
              ⟨fun hmem => absurd hmem (by decide), fun hor => absurd hor husage⟩⟩
          · rw [if_neg hn]
            by_cases hE : inputExists = false
            · rw [if_pos hE]
              refine ⟨rfl, rfl, by simp, ⟨fun hmem => ?_, fun hor => absurd hor husage⟩⟩
              exact absurd (List.mem_singleton.mp hmem) (usageMessage_ne_file_error _)
            · rw [if_neg hE]
              by_cases hF : read_file_lines fileText = []
              · rw [if_pos (by rw [hF]; rfl)]
                exact ⟨rfl, rfl, by simp,
                  ⟨fun hmem => absurd hmem (by decide), fun hor => absurd hor husage⟩⟩
              · exfalso
                rcases h with hx | hx | hx | hx | ⟨m, hm, hm1⟩ | hx | hx
                · exact hA hx
                · exact hB hx
                · exact hC hx
                · rw [hp] at hx
                  exact Option.noConfusion hx
                · rw [hp] at hm
                  have : n = m := Option.some_injective _ hm
                  omega
                · exact hE hx
                · exact hF hx

/-- Witness for splitMain_error_paths: invocation with no arguments at all. -/
theorem splitMain_error_paths_witness :
    (splitMain [] true ['x']).exitCode = 1 ∧
    (splitMain [] true ['x']).written = [] ∧
    (splitMain [] true ['x']).printed ≠ [] ∧
    (usageMessage ∈ (splitMain [] true ['x']).printed ↔
      (falsy (argsGet (([] : List String).filterMap parseArg) "input_file") = true ∨
       falsy (argsGet (([] : List String).filterMap parseArg) "output_path") = true ∨
       falsy (argsGet (([] : List String).filterMap parseArg) "n_files") = true)) :=
  splitMain_error_paths [] true ['x'] (Or.inl (by decide))

/- ## Pipeline A: convert_to_parquet.py -/

/-- Models numpy's seeded global generator state.  np.random.seed(seed)
(line 119) replaces whatever global state existed before with one derived
from the 32-bit seed alone; the prior state is discarded. -/
def npSeedState (_prior : Nat) (seed : Nat) : Nat := seed % 4294967296

/-- Models one step of the seeded pseudo-random generator.  numpy's exact
MT19937 stream is a library internal; a 64-bit linear congruential step
stands in for it, preserving what the program relies on: a deterministic
next state from the current one. -/
def lcgNext (s : Nat) : Nat :=
  (6364136223846793005 * s + 1442695040888963407) % 18446744073709551616

/-- Models np.random.permutation (line 120) as a Fisher-Yates shuffle of
the index pool driven by the seeded generator: repeatedly draw an index
below the pool size, emit that element, and continue on the rest. -/
def fisherYates (g : Nat) (pool : List Nat) : List Nat :=
  match pool with
  | [] => []
  | c :: rest =>
    let g1 := lcgNext g
    let j := g1 % (c :: rest).length
    (c :: rest).getD j 0 :: fisherYates g1 ((c :: rest).eraseIdx j)
termination_by pool.length
decreasing_by
  have hj : g1 % (c :: rest).length < (c :: rest).length :=
    Nat.mod_lt _ (by simp)
  rw [List.length_eraseIdx]
  simp only [if_pos hj]
  simp

/-- df.iloc over a list of positional indices (line 121): out-of-range
positions cannot occur for a permutation of the index range. -/
def ilocList (rows : List α) (idx : List Nat) : List α :=
  idx.filterMap (fun i => rows[i]?)

/-- Embeds the slicing loop of shuffle_and_shard (lines 126-138): shard
shard_idx is rows[start_row : end_row] of the shuffled frame, with
rows_per_shard = total_rows / num_shards and the last shard extending to
total_rows. -/
def shardSlices (rows : List α) (num_shards : Nat) : List (List α) :=
  let total_rows := rows.length
  let rows_per_shard := total_rows / num_shards
  (List.range num_shards).map (fun shard_idx =>
    let start_row := shard_idx * rows_per_shard
    let end_row := if shard_idx = num_shards - 1 then total_rows
      else (shard_idx + 1) * rows_per_shard
    (rows.drop start_row).take (end_row - start_row))

/-- Embeds shuffle_and_shard of convert_to_parquet.py (lines 114-173) up
to the Parquet serialization: seed the global generator (discarding the
prior state g), permute the row indices, reorder the frame, and slice it
into num_shards shards. -/
def shuffle_and_shard (df : List α) (num_shards seed g : Nat) : List (List α) :=
  let state := npSeedState g seed
  let shuffled_indices := fisherYates state (List.range df.length)
  let df_shuffled := ilocList df shuffled_indices
  shardSlices df_shuffled num_shards

theorem getD_cons_eraseIdx_perm (l : List Nat) (j : Nat) (hj : j < l.length) :
    (l.getD j 0 :: l.eraseIdx j).Perm l := by
  rw [List.getD_eq_getElem l 0 hj, List.eraseIdx_eq_take_drop_succ]
  have h1 : (l.take j ++ l[j] :: l.drop (j + 1)).Perm
      (l[j] :: (l.take j ++ l.drop (j + 1))) := List.perm_middle
  have h2 : l.take j ++ l[j] :: l.drop (j + 1) = l := by
    rw [List.getElem_cons_drop l j hj]
    exact List.take_append_drop j l
  rw [h2] at h1
  exact h1.symm

theorem fisherYates_perm_le : ∀ (fuel : Nat) (pool : List Nat), pool.length ≤ fuel →
    ∀ g, (fisherYates g pool).Perm pool := by
  intro fuel
  induction fuel with
  | zero =>
    intro pool h g
    have : pool = [] := List.eq_nil_of_length_eq_zero (by omega)
    subst this
    rw [fisherYates]
  | succ fuel ih =>
    intro pool hlen g
    match pool with
    | [] => rw [fisherYates]
    | c :: rest =>
      rw [fisherYates]
      have hj : lcgNext g % (c :: rest).length < (c :: rest).length :=
        Nat.mod_lt _ (by simp)
      have hel : ((c :: rest).eraseIdx (lcgNext g % (c :: rest).length)).length ≤ fuel := by
        rw [List.length_eraseIdx]
        simp only [if_pos hj]
        simp only [List.length_cons] at hlen ⊢
        omega
      exact ((ih _ hel (lcgNext g)).cons _).trans (getD_cons_eraseIdx_perm _ _ hj)

/-- The generated index list is a permutation of the full index range. -/
theorem fisherYates_perm (g : Nat) (pool : List Nat) : (fisherYates g pool).Perm pool :=
  fisherYates_perm_le pool.length pool le_rfl g

theorem ilocList_range (rows : List α) :
    ilocList rows (List.range rows.length) = rows := by
  induction rows with
  | nil => rfl
  | cons a l ih =>
    rw [ilocList, List.length_cons, List.range_succ_eq_map]
    rw [List.filterMap_cons]
    simp only [List.getElem?_cons_zero]
    rw [List.filterMap_map]
    have : (fun i => (a :: l)[i]?) ∘ Nat.succ = fun i => l[i]? := by
      funext i
      simp [List.getElem?_cons_succ]
    rw [this]
    rw [ilocList] at ih
    rw [ih]

/-- Reindexing by any permutation of the index range permutes the rows. -/
theorem ilocList_perm (rows : List α) (idx : List Nat)
    (h : idx.Perm (List.range rows.length)) : (ilocList rows idx).Perm rows := by
  have := h.filterMap (fun i => rows[i]?)
  rw [show List.filterMap (fun i => rows[i]?) (List.range rows.length)
      = ilocList rows (List.range rows.length) from rfl] at this
  rw [ilocList_range rows] at this
  exact this

/-- The shuffled frame is a permutation of the input frame. -/
theorem shuffled_perm (df : List α) (seed g : Nat) :
    (ilocList df (fisherYates (npSeedState g seed) (List.range df.length))).Perm df :=
  ilocList_perm df _ (fisherYates_perm _ _)

theorem shuffled_length (df : List α) (seed g : Nat) :
    (ilocList df (fisherYates (npSeedState g seed) (List.range df.length))).length
      = df.length :=
  (shuffled_perm df seed g).length_eq

/-- Joining consecutive fixed-width slices gives an initial segment. -/
theorem flatten_slices (rows : List α) (q : Nat) :
    ∀ k, ((List.range k).map (fun i => (rows.drop (i * q)).take q)).flatten
      = rows.take (k * q) := by
  intro k
  induction k with
  | zero => simp
  | succ k ih =>
    rw [List.range_succ, List.map_append, List.flatten_append]
    rw [ih]
    simp only [List.map_cons, List.map_nil, List.flatten_cons, List.flatten_nil,
      List.append_nil]
    rw [← List.take_add]
    congr 1
    rw [Nat.succ_mul]

/-- The shard slices concatenate, in shard order, to the whole row list. -/
theorem shardSlices_flatten (rows : List α) (n : Nat) (hn : 1 ≤ n) :
    (shardSlices rows n).flatten = rows := by
  rw [shardSlices]
  obtain ⟨m, hm⟩ : ∃ m, n = m + 1 := ⟨n - 1, by omega⟩
  subst hm
  rw [List.range_succ, List.map_append, List.flatten_append]
  have hfront : (List.range m).map (fun shard_idx =>
      (rows.drop (shard_idx * (rows.length / (m + 1)))).take
        ((if shard_idx = m + 1 - 1 then rows.length
          else (shard_idx + 1) * (rows.length / (m + 1)))
          - shard_idx * (rows.length / (m + 1))))
      = (List.range m).map (fun i =>
          (rows.drop (i * (rows.length / (m + 1)))).take (rows.length / (m + 1))) := by
    apply List.map_congr_left
    intro i hi
    rw [List.mem_range] at hi
    rw [if_neg (by omega)]
    congr 1
    rw [Nat.succ_mul, Nat.add_sub_cancel_left]
  rw [hfront, flatten_slices]
  simp only [List.map_cons, List.map_nil, List.flatten_cons, List.flatten_nil,
    List.append_nil]
  rw [if_pos (show m = m + 1 - 1 by omega)]
  have hle : m * (rows.length / (m + 1)) ≤ rows.length := by
    calc m * (rows.length / (m + 1)) ≤ (m + 1) * (rows.length / (m + 1)) :=
          Nat.mul_le_mul_right _ (by omega)
    _ ≤ rows.length := by
          rw [Nat.mul_comm]
          exact Nat.div_mul_le_self _ _
  have htk : (rows.drop (m * (rows.length / (m + 1)))).take
      (rows.length - m * (rows.length / (m + 1)))
      = rows.drop (m * (rows.length / (m + 1))) := by
    apply List.take_of_length_le
    rw [List.length_drop]
  rw [htk]
  exact List.take_append_drop _ rows

/-- Claim C1: for at least one shard, the concatenation of all shard row
slices, in shard order, is exactly the shuffled frame, and that shuffled
frame is a permutation of the input rows — so every input row lands in
exactly one shard, with no duplication and no loss. -/
theorem shuffle_and_shard_partition (df : List α) (num_shards seed g : Nat)
    (hn : 1 ≤ num_shards) :
    (shuffle_and_shard df num_shards seed g).flatten
        = ilocList df (fisherYates (npSeedState g seed) (List.range df.length)) ∧
    ((shuffle_and_shard df num_shards seed g).flatten).Perm df := by
  have h1 : (shuffle_and_shard df num_shards seed g).flatten
      = ilocList df (fisherYates (npSeedState g seed) (List.range df.length)) :=
    shardSlices_flatten _ num_shards hn
  exact ⟨h1, h1 ▸ shuffled_perm df seed g⟩

/-- Witness for shuffle_and_shard_partition on a three-row frame split in
two shards with the script's seed 42. -/
theorem shuffle_and_shard_partition_witness :
    1 ≤ 2 ∧
    ((shuffle_and_shard [10, 20, 30] 2 42 0).flatten
        = ilocList [10, 20, 30]
            (fisherYates (npSeedState 0 42) (List.range ([10, 20, 30] : List Nat).length)) ∧
    ((shuffle_and_shard [10, 20, 30] 2 42 0).flatten).Perm [10, 20, 30]) :=
  ⟨by decide, shuffle_and_shard_partition [10, 20, 30] 2 42 0 (by decide)⟩

theorem shardSlices_length (rows : List α) (n : Nat) :
    (shardSlices rows n).length = n := by
  rw [shardSlices]
  rw [List.length_map, List.length_range]

/-- Every shard before the last receives exactly total / n rows. -/
theorem shardSlices_front_size (rows : List α) (n i : Nat) (hi : i < n - 1) :
    ∃ s, (shardSlices rows n)[i]? = some s ∧ s.length = rows.length / n := by
  have hin : i < n := by omega
  refine ⟨(rows.drop (i * (rows.length / n))).take
      ((if i = n - 1 then rows.length else (i + 1) * (rows.length / n))
        - i * (rows.length / n)), ?_, ?_⟩
  · rw [shardSlices]
    rw [List.getElem?_map, List.getElem?_range hin]
    rfl
  · rw [if_neg (by omega)]
    rw [List.length_take, List.length_drop]
    have h1 : (i + 1) * (rows.length / n) ≤ rows.length := by
      calc (i + 1) * (rows.length / n) ≤ n * (rows.length / n) :=
            Nat.mul_le_mul_right _ (by omega)
      _ ≤ rows.length := by
            rw [Nat.mul_comm]
            exact Nat.div_mul_le_self _ _
    have h2 : (i + 1) * (rows.length / n) = i * (rows.length / n) + rows.length / n :=
      Nat.succ_mul _ _
    generalize hq : rows.length / n = q at h1 h2 ⊢
    generalize ha : i * q = a at h2 ⊢
    generalize hb : (i + 1) * q = b at h1 h2 ⊢
    omega

/-- The last shard receives total / n plus the remainder rows. -/
theorem shardSlices_last_size (rows : List α) (n : Nat) (hn : 1 ≤ n) :
    ∃ s, (shardSlices rows n)[n - 1]? = some s ∧
      s.length = rows.length / n + rows.length % n := by
  have hin : n - 1 < n := by omega
  refine ⟨(rows.drop ((n - 1) * (rows.length / n))).take
      ((if n - 1 = n - 1 then rows.length else (n - 1 + 1) * (rows.length / n))
        - (n - 1) * (rows.length / n)), ?_, ?_⟩
  · rw [shardSlices]
    rw [List.getElem?_map, List.getElem?_range hin]
    rfl
  · rw [if_pos rfl]
    rw [List.length_take, List.length_drop]
    have h1 : (n - 1) * (rows.length / n) + rows.length / n = n * (rows.length / n) := by
      rw [← Nat.succ_mul]
      congr 1
      omega
    have h2 : n * (rows.length / n) + rows.length % n = rows.length :=
      Nat.div_add_mod _ _
    generalize hq : rows.length / n = q at h1 h2 ⊢
    generalize hr : rows.length % n = r at h2 ⊢
    generalize ha : (n - 1) * q = a at h1 ⊢
    generalize hb : n * q = b at h1 h2 ⊢
    omega

/-- Claim C2: with R total rows and N shards, N at least 1, shards 1..N-1
each receive exactly R / N rows and the last shard R / N + R mod N rows;
in particular for R < N the leading shards are empty and the function is
total (no error). -/
theorem shuffle_and_shard_sizes (df : List α) (num_shards seed g : Nat)
    (hn : 1 ≤ num_shards) :
    (shuffle_and_shard df num_shards seed g).length = num_shards ∧
    (∀ i, i < num_shards - 1 →
      ∃ s, (shuffle_and_shard df num_shards seed g)[i]? = some s ∧
        s.length = df.length / num_shards) ∧
    (∃ s, (shuffle_and_shard df num_shards seed g)[num_shards - 1]? = some s ∧
      s.length = df.length / num_shards + df.length % num_shards) := by
  have hL := shuffled_length df seed g
  refine ⟨shardSlices_length _ _, ?_, ?_⟩
  · intro i hi
    have h := shardSlices_front_size
      (ilocList df (fisherYates (npSeedState g seed) (List.range df.length)))
      num_shards i hi
    rw [hL] at h
    exact h
  · have h := shardSlices_last_size
      (ilocList df (fisherYates (npSeedState g seed) (List.range df.length)))
      num_shards hn
    rw [hL] at h
    exact h

/-- Witness for shuffle_and_shard_sizes: five rows in two shards give
sizes 2 and 3. -/
theorem shuffle_and_shard_sizes_witness :
    1 ≤ 2 ∧
    ((shuffle_and_shard [1, 2, 3, 4, 5] 2 42 0).length = 2 ∧
    (∀ i, i < 2 - 1 →
      ∃ s, (shuffle_and_shard [1, 2, 3, 4, 5] 2 42 0)[i]? = some s ∧
        s.length = ([1, 2, 3, 4, 5] : List Nat).length / 2) ∧
    (∃ s, (shuffle_and_shard [1, 2, 3, 4, 5] 2 42 0)[2 - 1]? = some s ∧
      s.length = ([1, 2, 3, 4, 5] : List Nat).length / 2
        + ([1, 2, 3, 4, 5] : List Nat).length % 2)) :=
  ⟨by decide, shuffle_and_shard_sizes [1, 2, 3, 4, 5] 2 42 0 (by decide)⟩

/-- Claim C5: the shards produced from a given frame and seed do not
depend on the pseudo-random generator state left over from anything
earlier: seeding makes two runs with the same input and seed produce the
identical permutation and hence identical row-to-shard assignment. -/
theorem shuffle_and_shard_deterministic (df : List α) (num_shards seed g1 g2 : Nat) :
    shuffle_and_shard df num_shards seed g1 = shuffle_and_shard df num_shards seed g2 :=
  rfl

/- ## Type optimizer (convert_to_parquet.py, optimize_dtypes) -/

/-- Pandas storage dtypes occurring in optimize_dtypes. -/
inductive Dtype
  | float64
  | float32
  | int64
  | int16
  | object
  | category
deriving DecidableEq

/-- A cell value: numeric (exact rational stand-in for the stored number)
or text. -/
inductive PdVal
  | num (q : ℚ)
  | str (s : String)
deriving DecidableEq

/-- A column: its storage dtype and its values. -/
structure PdColumn where
  dtype : Dtype
  values : List PdVal
deriving DecidableEq

/-- A dataframe as an ordered association of column names to columns. -/
abbrev PdFrame := List (String × PdColumn)

/-- The narrow-float column list of convert_to_parquet.py (lines 30-34). -/
def FLOAT32_COLUMNS : List String :=
  ["x", "y", "z", "transformedX", "transformedY", "transformedZ", "X_shifted", "Time"]

/-- The narrow-int column list (line 36). -/
def INT16_COLUMNS : List String := ["TimeRank"]

/-- The categorical column list (lines 38-40). -/
def CATEGORICAL_COLUMNS : List String :=
  ["Gene", "CellType", "Structure", "HF", "Sample", "Group"]

/-- Truncation of a rational toward zero, as numpy does when casting to an
integer dtype. -/
def ratTrunc (q : ℚ) : Int :=
  if 0 ≤ q.num then (q.num.toNat / q.den : Nat)
  else -(((-q.num).toNat / q.den : Nat) : Int)

/-- Two's-complement wrap-around into the signed 16-bit range, numpy's
behaviour when a value does not fit the target integer dtype. -/
def int16Wrap (n : Int) : Int := (n + 32768) % 65536 - 32768

/-- Value transformation of astype to int16: truncate toward zero and wrap
into 16 bits.  Text cells are left as they are (pandas would raise on
non-numeric text; no listed narrow-int column holds text). -/
def toInt16Val : PdVal → PdVal
  | .num q => .num ((int16Wrap (ratTrunc q) : Int) : ℚ)
  | .str s => .str s

/-- Value transformation of astype to float32, parameterized by the
float64-to-float32 rounding function f32: the narrowing itself is IEEE
arithmetic whose precision loss the spec explicitly accepts, so the claims
hold for every choice of f32. -/
def toFloat32Val (f32 : ℚ → ℚ) : PdVal → PdVal
  | .num q => .num (f32 q)
  | .str s => .str s

/-- astype applied to a whole column: new dtype, values mapped. -/
def astype (f : PdVal → PdVal) (d : Dtype) (c : PdColumn) : PdColumn :=
  ⟨d, c.values.map f⟩

/-- astype to category: dictionary re-encoding keeps every value. -/
def astypeCategory (c : PdColumn) : PdColumn := ⟨Dtype.category, c.values⟩

/-- The column names of a frame, as df.columns. -/
def dfColumns (df : PdFrame) : List String := df.map Prod.fst

/-- Assignment df[name] = f(df[name]): every entry carrying that name is
rewritten in place, all others are untouched. -/
def dfSetCol (df : PdFrame) (name : String) (f : PdColumn → PdColumn) : PdFrame :=
  df.map (fun p => if p.1 = name then (p.1, f p.2) else p)

/-- One conversion pass of optimize_dtypes: for col in cols, if col is a
column of the frame, cast it; absent columns are skipped. -/
def castListed (df : PdFrame) (cols : List String) (f : PdColumn → PdColumn) : PdFrame :=
  cols.foldl (fun d col => if (dfColumns d).contains col then dfSetCol d col f else d) df

/-- Embeds optimize_dtypes of convert_to_parquet.py (lines 76-111): the
float32 pass, then the int16 pass, then the categorical pass; the cell
column is only reported, never converted. -/
def optimize_dtypes (f32 : ℚ → ℚ) (df : PdFrame) : PdFrame :=
  let df1 := castListed df FLOAT32_COLUMNS (astype (toFloat32Val f32) Dtype.float32)
  let df2 := castListed df1 INT16_COLUMNS (astype toInt16Val Dtype.int16)
  castListed df2 CATEGORICAL_COLUMNS astypeCategory

/-- Whether a numeric value is an integer in the signed 16-bit range. -/
def int16InRange : PdVal → Bool
  | .num q => q.den == 1 && decide (-32768 ≤ q.num) && decide (q.num < 32768)
  | .str _ => true

theorem dfSetCol_getElem? (df : PdFrame) (name : String) (f : PdColumn → PdColumn)
    (i : Nat) :
    (dfSetCol df name f)[i]?
      = (df[i]?).map (fun p => if p.1 = name then (p.1, f p.2) else p) := by
  rw [dfSetCol, List.getElem?_map]

theorem dfSetCol_columns (df : PdFrame) (name : String) (f : PdColumn → PdColumn) :
    dfColumns (dfSetCol df name f) = dfColumns df := by
  rw [dfColumns, dfSetCol, List.map_map, dfColumns]
  apply List.map_congr_left
  intro p _
  by_cases h : p.1 = name <;> simp [h]

theorem castListed_cons (df : PdFrame) (c : String) (cols : List String)
    (f : PdColumn → PdColumn) :
    castListed df (c :: cols) f
      = castListed (if (dfColumns df).contains c then dfSetCol df c f else df) cols f :=
  rfl

theorem castListed_columns : ∀ (cols : List String) (df : PdFrame)
    (f : PdColumn → PdColumn), dfColumns (castListed df cols f) = dfColumns df := by
  intro cols
  induction cols with
  | nil => intro df f; rfl
  | cons c cols ih =>
    intro df f
    rw [castListed_cons, ih]
    by_cases h : (dfColumns df).contains c
    · rw [if_pos h, dfSetCol_columns]
    · rw [if_neg h]

theorem castListed_length (cols : List String) (df : PdFrame) (f : PdColumn → PdColumn) :
    (castListed df cols f).length = df.length := by
  have h := castListed_columns cols df f
  have h1 : (dfColumns (castListed df cols f)).length = (dfColumns df).length := by rw [h]
  simpa [dfColumns] using h1

/-- Entries whose name is in none of the listed columns pass through a
conversion pass untouched. -/
theorem castListed_getElem?_not_mem : ∀ (cols : List String) (df : PdFrame)
    (f : PdColumn → PdColumn) (i : Nat) (e : String × PdColumn),
    df[i]? = some e → e.1 ∉ cols → (castListed df cols f)[i]? = some e := by
  intro cols
  induction cols with
  | nil => intro df f i e he _; exact he
  | cons c cols ih =>
    intro df f i e he hnm
    rw [castListed_cons]
    have hne : e.1 ≠ c := fun h => hnm (h ▸ List.mem_cons_self c cols)
    by_cases h : (dfColumns df).contains c
    · rw [if_pos h]
      apply ih _ _ _ _ _ (fun hm => hnm (List.mem_cons_of_mem _ hm))
      rw [dfSetCol_getElem?, he]
      simp only [Option.map_some']
      rw [if_neg hne]
    · rw [if_neg h]
      exact ih _ _ _ _ he (fun hm => hnm (List.mem_cons_of_mem _ hm))

/-- A pass whose per-column cast keeps the values (such as the categorical
re-encoding) preserves every entry's name and values. -/
theorem castListed_getElem?_values (f : PdColumn → PdColumn)
    (hf : ∀ c, (f c).values = c.values) :
    ∀ (cols : List String) (df : PdFrame) (i : Nat) (e : String × PdColumn),
      df[i]? = some e →
      ∃ e', (castListed df cols f)[i]? = some e' ∧ e'.1 = e.1 ∧
        e'.2.values = e.2.values := by
  intro cols
  induction cols with
  | nil => intro df i e he; exact ⟨e, he, rfl, rfl⟩
  | cons c cols ih =>
    intro df i e he
    rw [castListed_cons]
    by_cases h : (dfColumns df).contains c
    · rw [if_pos h]
      have he2 : (dfSetCol df c f)[i]? = some (if e.1 = c then (e.1, f e.2) else e) := by
        rw [dfSetCol_getElem?, he]
        rfl
      obtain ⟨e', h1, h2, h3⟩ := ih _ _ _ he2
      refine ⟨e', h1, ?_, ?_⟩
      · rw [h2]
        by_cases hc : e.1 = c <;> simp [hc]
      · rw [h3]
        by_cases hc : e.1 = c <;> simp [hc, hf]
    · rw [if_neg h]
      exact ih _ _ _ he

/-- The int16 pass rewrites a TimeRank entry to its int16 cast. -/
theorem castListed_int16_entry (df : PdFrame) (i : Nat) (e : String × PdColumn)
    (he : df[i]? = some e) (hn : e.1 = "TimeRank") :
    (castListed df INT16_COLUMNS (astype toInt16Val Dtype.int16))[i]?
      = some (e.1, astype toInt16Val Dtype.int16 e.2) := by
  have hm : e ∈ df := List.getElem?_mem he
  have hcm : "TimeRank" ∈ dfColumns df := by
    rw [← hn]
    exact List.mem_map_of_mem Prod.fst hm
  have hcont : (dfColumns df).contains "TimeRank" = true := List.elem_iff.mpr hcm
  have hstep : castListed df INT16_COLUMNS (astype toInt16Val Dtype.int16)
      = if (dfColumns df).contains "TimeRank"
        then dfSetCol df "TimeRank" (astype toInt16Val Dtype.int16) else df := rfl
  rw [hstep, if_pos hcont, dfSetCol_getElem?, he]
  simp [hn]

/-- Counterexample to claim C9 as stated: the int16 narrowing wraps
out-of-range values, so a TimeRank value of 32768 — not a float column —
comes out as -32768: a logical value is altered by a conversion that is
not a float narrowing. -/
theorem optimize_dtypes_counterexample :
    optimize_dtypes id [("TimeRank", ⟨Dtype.int64, [PdVal.num 32768]⟩)]
      = [("TimeRank", ⟨Dtype.int16, [PdVal.num (-32768)]⟩)] ∧
    "TimeRank" ∉ FLOAT32_COLUMNS ∧
    (PdVal.num (-32768) : PdVal) ≠ PdVal.num 32768 := by
  decide

/-- Claim C9 amended: optimize_dtypes keeps the frame's shape and column
names; every column whose name is in none of the three lists is entirely
unchanged; listed columns absent from the frame are silently skipped (the
function is total and touches only matching entries); categorical
conversion preserves all values; the int16 conversion maps values through
truncate-and-wrap, which is the identity on integer values that fit the
signed 16-bit range — but not beyond it — and float narrowing is exempted
by the spec. -/
theorem optimize_dtypes_effect (f32 : ℚ → ℚ) (df : PdFrame) :
    (optimize_dtypes f32 df).length = df.length ∧
    dfColumns (optimize_dtypes f32 df) = dfColumns df ∧
    (∀ (i : Nat) (e : String × PdColumn), df[i]? = some e → e.1 ∉ FLOAT32_COLUMNS → e.1 ∉ INT16_COLUMNS →
      e.1 ∉ CATEGORICAL_COLUMNS → (optimize_dtypes f32 df)[i]? = some e) ∧
    (∀ (i : Nat) (e : String × PdColumn), df[i]? = some e → e.1 ∈ CATEGORICAL_COLUMNS →
      ∃ e', (optimize_dtypes f32 df)[i]? = some e' ∧ e'.1 = e.1 ∧
        e'.2.values = e.2.values) ∧
    (∀ (i : Nat) (e : String × PdColumn), df[i]? = some e → e.1 ∈ INT16_COLUMNS →
      ∃ e', (optimize_dtypes f32 df)[i]? = some e' ∧ e'.1 = e.1 ∧
        e'.2.values = e.2.values.map toInt16Val) ∧
    (∀ v, int16InRange v = true → toInt16Val v = v) := by
  have hdisjCF : ∀ x ∈ CATEGORICAL_COLUMNS, x ∉ FLOAT32_COLUMNS := by decide
  have hdisjCI : ∀ x ∈ CATEGORICAL_COLUMNS, x ∉ INT16_COLUMNS := by decide
  have hTRF : ("TimeRank" : String) ∉ FLOAT32_COLUMNS := by decide
  have hTRC : ("TimeRank" : String) ∉ CATEGORICAL_COLUMNS := by decide
  refine ⟨?_, ?_, ?_, ?_, ?_, ?_⟩
  · show (castListed (castListed (castListed df FLOAT32_COLUMNS
        (astype (toFloat32Val f32) Dtype.float32)) INT16_COLUMNS
        (astype toInt16Val Dtype.int16)) CATEGORICAL_COLUMNS astypeCategory).length
      = df.length
    rw [castListed_length, castListed_length, castListed_length]
  · show dfColumns (castListed (castListed (castListed df FLOAT32_COLUMNS
        (astype (toFloat32Val f32) Dtype.float32)) INT16_COLUMNS
        (astype toInt16Val Dtype.int16)) CATEGORICAL_COLUMNS astypeCategory)
      = dfColumns df
    rw [castListed_columns, castListed_columns, castListed_columns]
  · intro i e he hF hI hC
    have h1 := castListed_getElem?_not_mem FLOAT32_COLUMNS df
      (astype (toFloat32Val f32) Dtype.float32) i e he hF
    have h2 := castListed_getElem?_not_mem INT16_COLUMNS _
      (astype toInt16Val Dtype.int16) i e h1 hI
    exact castListed_getElem?_not_mem CATEGORICAL_COLUMNS _ astypeCategory i e h2 hC
  · intro i e he hC
    have h1 := castListed_getElem?_not_mem FLOAT32_COLUMNS df
      (astype (toFloat32Val f32) Dtype.float32) i e he (hdisjCF e.1 hC)
    have h2 := castListed_getElem?_not_mem INT16_COLUMNS _
      (astype toInt16Val Dtype.int16) i e h1 (hdisjCI e.1 hC)
    exact castListed_getElem?_values astypeCategory (fun c => rfl)
      CATEGORICAL_COLUMNS _ i e h2
  · intro i e he hI
    have hn : e.1 = "TimeRank" := List.mem_singleton.mp hI
    have h1 := castListed_getElem?_not_mem FLOAT32_COLUMNS df
      (astype (toFloat32Val f32) Dtype.float32) i e he (by rw [hn]; exact hTRF)
    have h2 := castListed_int16_entry _ i e h1 hn
    have h3 := castListed_getElem?_not_mem CATEGORICAL_COLUMNS _ astypeCategory i
      (e.1, astype toInt16Val Dtype.int16 e.2) h2 (by rw [hn]; exact hTRC)
    exact ⟨(e.1, astype toInt16Val Dtype.int16 e.2), h3, rfl, rfl⟩
  · intro v hv
    cases v with
    | str s => rfl
    | num q =>
      simp only [int16InRange, Bool.and_eq_true, beq_iff_eq, decide_eq_true_eq] at hv
      obtain ⟨⟨hden, hlo⟩, hhi⟩ := hv
      have htr : ratTrunc q = q.num := by
        rw [ratTrunc, hden]
        by_cases h0 : 0 ≤ q.num
        · rw [if_pos h0]
          rw [Nat.div_one]
          exact_mod_cast Int.toNat_of_nonneg h0
        · rw [if_neg h0]
          rw [Nat.div_one]
          have : ((-q.num).toNat : Int) = -q.num := Int.toNat_of_nonneg (by omega)
          rw [this]
          omega
      have hwrap : int16Wrap q.num = q.num := by
        rw [int16Wrap]
        omega
      have hq : ((q.num : Int) : ℚ) = q := by
        rw [Rat.den_eq_one_iff] at hden
        exact hden
      show PdVal.num ((int16Wrap (ratTrunc q) : Int) : ℚ) = PdVal.num q
      rw [htr, hwrap, hq]

/-- Witness for optimize_dtypes_effect on a one-column frame holding only
the exempt cell column. -/
theorem optimize_dtypes_effect_witness :
    (optimize_dtypes id [("cell", ⟨Dtype.object, [PdVal.str "c1"]⟩)]).length
        = ([("cell", (⟨Dtype.object, [PdVal.str "c1"]⟩ : PdColumn))] : PdFrame).length ∧
    dfColumns (optimize_dtypes id [("cell", ⟨Dtype.object, [PdVal.str "c1"]⟩)])
        = dfColumns [("cell", ⟨Dtype.object, [PdVal.str "c1"]⟩)] ∧
    (∀ (i : Nat) (e : String × PdColumn),
      ([("cell", (⟨Dtype.object, [PdVal.str "c1"]⟩ : PdColumn))] : PdFrame)[i]?
        = some e →
      e.1 ∉ FLOAT32_COLUMNS → e.1 ∉ INT16_COLUMNS → e.1 ∉ CATEGORICAL_COLUMNS →
      (optimize_dtypes id [("cell", ⟨Dtype.object, [PdVal.str "c1"]⟩)])[i]? = some e) ∧
    (∀ (i : Nat) (e : String × PdColumn),
      ([("cell", (⟨Dtype.object, [PdVal.str "c1"]⟩ : PdColumn))] : PdFrame)[i]?
        = some e →
      e.1 ∈ CATEGORICAL_COLUMNS →
      ∃ e', (optimize_dtypes id [("cell", ⟨Dtype.object, [PdVal.str "c1"]⟩)])[i]?
          = some e' ∧ e'.1 = e.1 ∧ e'.2.values = e.2.values) ∧
    (∀ (i : Nat) (e : String × PdColumn),
      ([("cell", (⟨Dtype.object, [PdVal.str "c1"]⟩ : PdColumn))] : PdFrame)[i]?
        = some e →
      e.1 ∈ INT16_COLUMNS →
      ∃ e', (optimize_dtypes id [("cell", ⟨Dtype.object, [PdVal.str "c1"]⟩)])[i]?
          = some e' ∧ e'.1 = e.1 ∧ e'.2.values = e.2.values.map toInt16Val) ∧
    (∀ v, int16InRange v = true → toInt16Val v = v) :=
  optimize_dtypes_effect id [("cell", ⟨Dtype.object, [PdVal.str "c1"]⟩)]

end CellCarto
